import Mathlib

/-!
Verification of the rencfs core storage and crypto engine specification.

The crypto layer (block codec, streaming reader/writer, seekable writer) is
shipped in this repository only through its test suite, so those components are
modelled from the specification text (sections 3, 4.1 to 4.5 of the spec); the
holder map, the short-lived secret cache and the FUSE `setattr` adapter are
embedded from the source files `arc_hashmap.rs`, `expire_value.rs` and
`encryptedfs_fuse3.rs`.

Bytes are represented as `Nat` values below 256; byte strings as `List Nat`.
All loops are written with explicit fuel so that every definition reduces in
the kernel.
-/

namespace Rencfs

/-- The two supported AEAD algorithms (`Cipher` in `crypto`): `ChaCha20Poly1305`
and `Aes256Gcm`. Both have 12-byte nonces, 16-byte tags and 256-bit keys. -/
inductive Cipher where
  | chaCha20Poly1305 : Cipher
  | aes256Gcm : Cipher
deriving DecidableEq, Repr

/-- Modelled from the spec: `NONCE_LEN` comes from the chosen AEAD; both
ChaCha20-Poly1305 and AES-256-GCM use 12-byte nonces. -/
def NONCE_LEN : Nat := 12

/-- Modelled from the spec: `TAG_LEN` comes from the chosen AEAD; both
ChaCha20-Poly1305 and AES-256-GCM use 16-byte tags. -/
def TAG_LEN : Nat := 16

/-- Modelled from the spec: `BLOCK_SIZE` is a system constant on the order of
64 KiB; a block encrypts exactly `BLOCK_SIZE` plaintext bytes except the final
block, which may be shorter. -/
def BLOCK_SIZE : Nat := 64 * 1024

/-- A numeric tag distinguishing the two ciphers inside the idealized
keystream, so that the two algorithms encrypt differently. -/
def cipherTag : Cipher → Nat
  | .chaCha20Poly1305 => 20
  | .aes256Gcm => 256

/-- Modelled from the spec: the AEAD primitive itself lives in the external
`ring` crate, so it is idealized as a per-byte keystream derived from the
cipher, the key, the nonce and the byte offset. -/
def keystream (c : Cipher) (key nonce : List Nat) (off : Nat) : Nat :=
  cipherTag c + 3 * key.sum + 5 * nonce.sum + 7 * off

/-- Encrypt one byte with one keystream byte (addition modulo 256). -/
def encByte (b k : Nat) : Nat := (b + k) % 256

/-- Decrypt one byte with one keystream byte (subtraction modulo 256). -/
def decByte (b k : Nat) : Nat := (b + 256 - k % 256) % 256

/-- Encrypt a byte string, one keystream byte per position. -/
def encBytes (c : Cipher) (key nonce : List Nat) : Nat → List Nat → List Nat
  | _, [] => []
  | off, b :: rest => encByte b (keystream c key nonce off) :: encBytes c key nonce (off + 1) rest

/-- Decrypt a byte string, one keystream byte per position. -/
def decBytes (c : Cipher) (key nonce : List Nat) : Nat → List Nat → List Nat
  | _, [] => []
  | off, b :: rest => decByte b (keystream c key nonce off) :: decBytes c key nonce (off + 1) rest

/-- Little-endian byte encoding of `n` on `w` bytes (`to_le_bytes` truncated to
width `w`). -/
def toLEBytes : Nat → Nat → List Nat
  | _, 0 => []
  | n, w + 1 => n % 256 :: toLEBytes (n / 256) w

/-- The 8-byte little-endian associated data for block index `i`
(`block_index.to_le_bytes()`). -/
def blockAD (i : Nat) : List Nat := toLEBytes i 8

/-- A toy integrity checksum over key, nonce and ciphertext; it fills the part
of the idealized tag not occupied by the associated data. -/
def checksum (key nonce ct : List Nat) : Nat := (key.sum + nonce.sum + ct.sum) % 256

/-- Modelled from the spec: the `TAG_LEN`-byte AEAD tag. The idealized tag
commits to the associated data (verbatim in its first bytes) and to the key,
nonce and ciphertext (through the checksum), so that AEAD opening fails
whenever the associated data differs. -/
def tagOf (key nonce ad ct : List Nat) : List Nat :=
  ad ++ List.replicate (TAG_LEN - ad.length) (checksum key nonce ct)

/-- Modelled from the spec (section 4.1): `Encrypt(plaintext, block_index)`
produces `ciphertext ‖ tag` under the given nonce and associated data. -/
def sealBlock (c : Cipher) (key nonce ad pt : List Nat) : List Nat :=
  encBytes c key nonce 0 pt ++ tagOf key nonce ad (encBytes c key nonce 0 pt)

/-- Modelled from the spec (section 4.1): `Decrypt(nonce, ciphertext ‖ tag,
block_index)` recomputes the tag and opens the block; failure (tag mismatch or
a body shorter than the tag) yields `none` (`CorruptBlock`). -/
def openBlock (c : Cipher) (key nonce ad body : List Nat) : Option (List Nat) :=
  if body.length < TAG_LEN then none
  else
    let ct := body.take (body.length - TAG_LEN)
    let tag := body.drop (body.length - TAG_LEN)
    if tag = tagOf key nonce ad ct then some (decBytes c key nonce 0 ct) else none

/-- Modelled from the spec (section 3): the on-disk record of one block,
`nonce ‖ ciphertext ‖ tag`, with the block index bound as associated data. -/
def blockRecord (c : Cipher) (key nonce : List Nat) (i : Nat) (pt : List Nat) : List Nat :=
  nonce ++ sealBlock c key nonce (blockAD i) pt

/-- A byte string consists of genuine bytes: every element is below 256. -/
def IsBytes (l : List Nat) : Prop := ∀ b ∈ l, b < 256

instance (l : List Nat) : Decidable (IsBytes l) := by
  unfold IsBytes; infer_instance

theorem decByte_encByte (b k : Nat) (hb : b < 256) : decByte (encByte b k) k = b := by
  unfold decByte encByte
  omega

theorem encBytes_length (c : Cipher) (key nonce : List Nat) :
    ∀ off pt, (encBytes c key nonce off pt).length = pt.length := by
  intro off pt
  induction pt generalizing off with
  | nil => simp [encBytes]
  | cons b rest ih => simp [encBytes, ih]

theorem decBytes_encBytes (c : Cipher) (key nonce : List Nat) :
    ∀ off pt, IsBytes pt → decBytes c key nonce off (encBytes c key nonce off pt) = pt := by
  intro off pt
  induction pt generalizing off with
  | nil => intro _; simp [encBytes, decBytes]
  | cons b rest ih =>
    intro h
    have hb : b < 256 := h b (List.mem_cons_self b rest)
    have hrest : IsBytes rest := fun x hx => h x (List.mem_cons_of_mem b hx)
    simp [encBytes, decBytes, decByte_encByte b _ hb, ih (off + 1) hrest]

theorem toLEBytes_length (w : Nat) : ∀ n, (toLEBytes n w).length = w := by
  induction w with
  | zero => intro n; simp [toLEBytes]
  | succ w ih => intro n; simp [toLEBytes, ih]

theorem toLEBytes_inj (w : Nat) :
    ∀ a b, a < 256 ^ w → b < 256 ^ w → toLEBytes a w = toLEBytes b w → a = b := by
  induction w with
  | zero =>
    intro a b ha hb _
    simp [pow_zero] at ha hb
    omega
  | succ w ih =>
    intro a b ha hb h
    simp only [toLEBytes, List.cons.injEq] at h
    have h1 : a % 256 = b % 256 := h.1
    have h2 : a / 256 = b / 256 := by
      apply ih
      · have : 256 ^ (w + 1) = 256 ^ w * 256 := by ring
        omega
      · have : 256 ^ (w + 1) = 256 ^ w * 256 := by ring
        omega
      · exact h.2
    omega

theorem blockAD_length (i : Nat) : (blockAD i).length = 8 := by
  simp [blockAD, toLEBytes_length]

theorem tagOf_length (key nonce ct : List Nat) (ad : List Nat) (had : ad.length = 8) :
    (tagOf key nonce ad ct).length = TAG_LEN := by
  simp [tagOf, had, TAG_LEN]

theorem sealBlock_length (c : Cipher) (key nonce pt : List Nat) (ad : List Nat)
    (had : ad.length = 8) :
    (sealBlock c key nonce ad pt).length = pt.length + TAG_LEN := by
  simp [sealBlock, encBytes_length, tagOf_length key nonce _ ad had]

theorem openBlock_sealBlock (c : Cipher) (key nonce pt : List Nat) (i : Nat)
    (hpt : IsBytes pt) :
    openBlock c key nonce (blockAD i) (sealBlock c key nonce (blockAD i) pt) = some pt := by
  have hlen : (sealBlock c key nonce (blockAD i) pt).length = pt.length + TAG_LEN :=
    sealBlock_length c key nonce pt _ (blockAD_length i)
  have hct : (encBytes c key nonce 0 pt).length = pt.length := encBytes_length c key nonce 0 pt
  unfold openBlock
  rw [hlen]
  have hge : ¬ (pt.length + TAG_LEN < TAG_LEN) := by omega
  simp only [hge, if_false]
  have htake : (sealBlock c key nonce (blockAD i) pt).take (pt.length + TAG_LEN - TAG_LEN)
      = encBytes c key nonce 0 pt := by
    unfold sealBlock
    rw [Nat.add_sub_cancel]
    rw [← hct, List.take_left]
  have hdrop : (sealBlock c key nonce (blockAD i) pt).drop (pt.length + TAG_LEN - TAG_LEN)
      = tagOf key nonce (blockAD i) (encBytes c key nonce 0 pt) := by
    unfold sealBlock
    rw [Nat.add_sub_cancel]
    rw [← hct, List.drop_left]
  rw [htake, hdrop]
  rw [if_pos rfl, decBytes_encBytes c key nonce 0 pt hpt]

theorem openBlock_sealBlock_wrong_index (c : Cipher) (key nonce pt : List Nat) (i j : Nat)
    (hi : i < 2 ^ 64) (hj : j < 2 ^ 64) (hne : i ≠ j) :
    openBlock c key nonce (blockAD j) (sealBlock c key nonce (blockAD i) pt) = none := by
  have hlen : (sealBlock c key nonce (blockAD i) pt).length = pt.length + TAG_LEN :=
    sealBlock_length c key nonce pt _ (blockAD_length i)
  have hct : (encBytes c key nonce 0 pt).length = pt.length := encBytes_length c key nonce 0 pt
  unfold openBlock
  rw [hlen]
  have hge : ¬ (pt.length + TAG_LEN < TAG_LEN) := by omega
  simp only [hge, if_false]
  have htake : (sealBlock c key nonce (blockAD i) pt).take (pt.length + TAG_LEN - TAG_LEN)
      = encBytes c key nonce 0 pt := by
    unfold sealBlock
    rw [Nat.add_sub_cancel]
    rw [← hct, List.take_left]
  have hdrop : (sealBlock c key nonce (blockAD i) pt).drop (pt.length + TAG_LEN - TAG_LEN)
      = tagOf key nonce (blockAD i) (encBytes c key nonce 0 pt) := by
    unfold sealBlock
    rw [Nat.add_sub_cancel]
    rw [← hct, List.drop_left]
  rw [htake, hdrop]
  have hadne : tagOf key nonce (blockAD i) (encBytes c key nonce 0 pt)
      ≠ tagOf key nonce (blockAD j) (encBytes c key nonce 0 pt) := by
    intro heq
    unfold tagOf at heq
    rw [blockAD_length, blockAD_length] at heq
    have hads : blockAD i = blockAD j := List.append_cancel_right heq
    have : i = j := by
      have h256 : (256 : Nat) ^ 8 = 2 ^ 64 := by norm_num
      exact toLEBytes_inj 8 i j (by rw [h256]; exact hi) (by rw [h256]; exact hj) hads
    exact hne this
  simp only [if_neg hadne]

/-- C3: for every plaintext block and block index `i` (below `2 ^ 64`, the width
of the on-disk index), the block codec's output record starts with the
`NONCE_LEN`-byte nonce followed by ciphertext and tag; AEAD-opening the sealed
body with the 8-byte little-endian encoding of `i` as associated data recovers
the plaintext, and opening with the encoding of any other index `j` fails. -/
theorem blockRecord_ad_binding (c : Cipher) (key nonce pt : List Nat) (i : Nat)
    (hnonce : nonce.length = NONCE_LEN) (hpt : IsBytes pt) (hi : i < 2 ^ 64) :
    (blockRecord c key nonce i pt).take NONCE_LEN = nonce ∧
    (blockRecord c key nonce i pt).drop NONCE_LEN = sealBlock c key nonce (blockAD i) pt ∧
    openBlock c key nonce (blockAD i) ((blockRecord c key nonce i pt).drop NONCE_LEN)
      = some pt ∧
    ∀ j, j < 2 ^ 64 → j ≠ i →
      openBlock c key nonce (blockAD j) ((blockRecord c key nonce i pt).drop NONCE_LEN)
        = none := by
  have htake : (blockRecord c key nonce i pt).take NONCE_LEN = nonce := by
    unfold blockRecord
    rw [← hnonce, List.take_left]
  have hdrop : (blockRecord c key nonce i pt).drop NONCE_LEN
      = sealBlock c key nonce (blockAD i) pt := by
    unfold blockRecord
    rw [← hnonce, List.drop_left]
  refine ⟨htake, hdrop, ?_, ?_⟩
  · rw [hdrop]
    exact openBlock_sealBlock c key nonce pt i hpt
  · intro j hj hne
    rw [hdrop]
    exact openBlock_sealBlock_wrong_index c key nonce pt i j hi hj (fun h => hne h.symm)

/-- Witness for C3 at a concrete block: key `[1, 2]`, an all-zero nonce, the
plaintext `"hi"` and block index 5 against index 6. -/
theorem blockRecord_ad_binding_witness :
    (List.replicate NONCE_LEN 0).length = NONCE_LEN ∧ IsBytes [104, 105] ∧ (5 : Nat) < 2 ^ 64 ∧
    openBlock .chaCha20Poly1305 [1, 2] (List.replicate NONCE_LEN 0) (blockAD 5)
      ((blockRecord .chaCha20Poly1305 [1, 2] (List.replicate NONCE_LEN 0) 5 [104, 105]).drop
        NONCE_LEN) = some [104, 105] ∧
    openBlock .chaCha20Poly1305 [1, 2] (List.replicate NONCE_LEN 0) (blockAD 6)
      ((blockRecord .chaCha20Poly1305 [1, 2] (List.replicate NONCE_LEN 0) 5 [104, 105]).drop
        NONCE_LEN) = none := by
  have h := blockRecord_ad_binding .chaCha20Poly1305 [1, 2] (List.replicate NONCE_LEN 0)
    [104, 105] 5 (by decide) (by decide) (by norm_num)
  exact ⟨by decide, by decide, by norm_num,
    h.2.2.1, h.2.2.2 6 (by norm_num) (by norm_num)⟩

/-- Modelled from the spec (section 3): the per-inode ciphertext file is the
concatenation of block records in ascending block-index order, `BLOCK_SIZE`
plaintext bytes per block except a possibly shorter final block. `fuel` bounds
the recursion; `i` is the index of the first block produced. -/
def encryptBlocks (c : Cipher) (key : List Nat) (nonces : Nat → List Nat) :
    Nat → Nat → List Nat → List Nat
  | 0, _, _ => []
  | _ + 1, _, [] => []
  | fuel + 1, i, pt@(_ :: _) =>
    blockRecord c key (nonces i) i (pt.take BLOCK_SIZE)
      ++ encryptBlocks c key nonces fuel (i + 1) (pt.drop BLOCK_SIZE)

/-- Modelled from the spec (section 4.2): the streaming crypto reader pulls one
full block record at a time (a short final record is allowed, EOF inside the
nonce or tag is an error), opens it with the current block index as associated
data and concatenates the plaintexts; `none` is `UnexpectedEof`/`CorruptBlock`. -/
def decryptBlocks (c : Cipher) (key : List Nat) : Nat → Nat → List Nat → Option (List Nat)
  | _, _, [] => some []
  | 0, _, _ :: _ => none
  | fuel + 1, i, ct@(_ :: _) =>
    if ct.length < NONCE_LEN + TAG_LEN then none
    else
      let recLen := min ct.length (NONCE_LEN + BLOCK_SIZE + TAG_LEN)
      match openBlock c key (ct.take NONCE_LEN) (blockAD i) ((ct.take recLen).drop NONCE_LEN) with
      | none => none
      | some pt => (decryptBlocks c key fuel (i + 1) (ct.drop recLen)).map (fun rest => pt ++ rest)

/-- Encrypt a whole plaintext into a ciphertext file starting at block 0. -/
def encryptFile (c : Cipher) (key : List Nat) (nonces : Nat → List Nat) (pt : List Nat) :
    List Nat :=
  encryptBlocks c key nonces (pt.length + 1) 0 pt

/-- Read a whole ciphertext file to the end (`read_to_end` on a fresh crypto
reader). -/
def decryptFile (c : Cipher) (key ct : List Nat) : Option (List Nat) :=
  decryptBlocks c key (ct.length + 1) 0 ct

theorem encryptBlocks_nil (c : Cipher) (key : List Nat) (nonces : Nat → List Nat)
    (fuel i : Nat) : encryptBlocks c key nonces fuel i [] = [] := by
  cases fuel <;> rfl

theorem encryptBlocks_fuel (c : Cipher) (key : List Nat) (nonces : Nat → List Nat) :
    ∀ f1 f2 i pt, pt.length ≤ f1 → pt.length ≤ f2 →
      encryptBlocks c key nonces f1 i pt = encryptBlocks c key nonces f2 i pt := by
  intro f1
  induction f1 with
  | zero =>
    intro f2 i pt h1 _
    have : pt = [] := List.length_eq_zero.mp (Nat.le_zero.mp h1)
    subst this
    rw [encryptBlocks_nil, encryptBlocks_nil]
  | succ f1 ih =>
    intro f2 i pt h1 h2
    cases pt with
    | nil => rw [encryptBlocks_nil, encryptBlocks_nil]
    | cons b rest =>
      cases f2 with
      | zero => simp at h2
      | succ f2 =>
        show blockRecord c key (nonces i) i ((b :: rest).take BLOCK_SIZE)
            ++ encryptBlocks c key nonces f1 (i + 1) ((b :: rest).drop BLOCK_SIZE)
          = blockRecord c key (nonces i) i ((b :: rest).take BLOCK_SIZE)
            ++ encryptBlocks c key nonces f2 (i + 1) ((b :: rest).drop BLOCK_SIZE)
        have hd : ((b :: rest).drop BLOCK_SIZE).length ≤ f1 := by
          rw [List.length_drop]
          simp only [List.length_cons] at h1 ⊢
          have : 1 ≤ BLOCK_SIZE := by norm_num [BLOCK_SIZE]
          omega
        have hd2 : ((b :: rest).drop BLOCK_SIZE).length ≤ f2 := by
          rw [List.length_drop]
          simp only [List.length_cons] at h2 ⊢
          have : 1 ≤ BLOCK_SIZE := by norm_num [BLOCK_SIZE]
          omega
        rw [ih f2 (i + 1) _ hd hd2]

/-- `encryptBlocks` with sufficient fuel, fixed to the canonical fuel. -/
def encFrom (c : Cipher) (key : List Nat) (nonces : Nat → List Nat) (i : Nat)
    (pt : List Nat) : List Nat :=
  encryptBlocks c key nonces (pt.length + 1) i pt

theorem encFrom_nil (c : Cipher) (key : List Nat) (nonces : Nat → List Nat) (i : Nat) :
    encFrom c key nonces i [] = [] := rfl

theorem encFrom_cons (c : Cipher) (key : List Nat) (nonces : Nat → List Nat) (i : Nat)
    (pt : List Nat) (h : pt ≠ []) :
    encFrom c key nonces i pt
      = blockRecord c key (nonces i) i (pt.take BLOCK_SIZE)
        ++ encFrom c key nonces (i + 1) (pt.drop BLOCK_SIZE) := by
  cases pt with
  | nil => exact absurd rfl h
  | cons b rest =>
    show blockRecord c key (nonces i) i ((b :: rest).take BLOCK_SIZE)
        ++ encryptBlocks c key nonces (b :: rest).length (i + 1) ((b :: rest).drop BLOCK_SIZE)
      = _
    congr 1
    apply encryptBlocks_fuel
    · rw [List.length_drop]
      simp only [List.length_cons]
      have : 1 ≤ BLOCK_SIZE := by norm_num [BLOCK_SIZE]
      omega
    · omega

theorem encryptBlocks_eq_encFrom (c : Cipher) (key : List Nat) (nonces : Nat → List Nat)
    (fuel i : Nat) (pt : List Nat) (h : pt.length ≤ fuel) :
    encryptBlocks c key nonces fuel i pt = encFrom c key nonces i pt :=
  encryptBlocks_fuel c key nonces fuel (pt.length + 1) i pt h (by omega)

theorem blockRecord_length (c : Cipher) (key nonce : List Nat) (i : Nat) (pt : List Nat)
    (hnonce : nonce.length = NONCE_LEN) :
    (blockRecord c key nonce i pt).length = NONCE_LEN + pt.length + TAG_LEN := by
  unfold blockRecord
  rw [List.length_append, hnonce, sealBlock_length c key nonce pt _ (blockAD_length i)]
  omega

theorem decryptBlocks_ne_nil (c : Cipher) (key : List Nat) (fuel i : Nat) (ct : List Nat)
    (h : ct ≠ []) :
    decryptBlocks c key (fuel + 1) i ct
      = if ct.length < NONCE_LEN + TAG_LEN then none
        else
          match openBlock c key (ct.take NONCE_LEN) (blockAD i)
              ((ct.take (min ct.length (NONCE_LEN + BLOCK_SIZE + TAG_LEN))).drop NONCE_LEN) with
          | none => none
          | some pt =>
            (decryptBlocks c key fuel (i + 1)
              (ct.drop (min ct.length (NONCE_LEN + BLOCK_SIZE + TAG_LEN)))).map
              (fun rest => pt ++ rest) := by
  cases ct with
  | nil => exact absurd rfl h
  | cons b rest => rfl

theorem decryptBlocks_encFrom (c : Cipher) (key : List Nat) (nonces : Nat → List Nat)
    (hn : ∀ j, (nonces j).length = NONCE_LEN) :
    ∀ fd pt i, pt.length ≤ fd → IsBytes pt →
      decryptBlocks c key fd i (encFrom c key nonces i pt) = some pt := by
  intro fd
  induction fd with
  | zero =>
    intro pt i h _
    have : pt = [] := List.length_eq_zero.mp (Nat.le_zero.mp h)
    subst this
    rfl
  | succ fd ih =>
    intro pt i h hbytes
    cases pt with
    | nil => rfl
    | cons b rest =>
      set pt := b :: rest with hpt
      have hpt_ne : pt ≠ [] := by simp [hpt]
      have hchunk_le : (pt.take BLOCK_SIZE).length ≤ pt.length := by
        rw [List.length_take]; omega
      have hchunk_pos : 0 < (pt.take BLOCK_SIZE).length := by
        rw [List.length_take]
        simp only [hpt, List.length_cons]
        have : 1 ≤ BLOCK_SIZE := by norm_num [BLOCK_SIZE]
        omega
      have hrec_len : (blockRecord c key (nonces i) i (pt.take BLOCK_SIZE)).length
          = NONCE_LEN + (pt.take BLOCK_SIZE).length + TAG_LEN :=
        blockRecord_length c key (nonces i) i _ (hn i)
      rw [encFrom_cons c key nonces i pt hpt_ne]
      set record := blockRecord c key (nonces i) i (pt.take BLOCK_SIZE) with hrecord
      set tail := encFrom c key nonces (i + 1) (pt.drop BLOCK_SIZE) with htail
      have hct_ne : record ++ tail ≠ [] := by
        intro hcontra
        have := congrArg List.length hcontra
        rw [List.length_append, hrec_len] at this
        simp [NONCE_LEN, TAG_LEN] at this
      rw [decryptBlocks_ne_nil c key fd i _ hct_ne]
      have hnot_short : ¬ ((record ++ tail).length < NONCE_LEN + TAG_LEN) := by
        rw [List.length_append, hrec_len]
        omega
      rw [if_neg hnot_short]
      have hrecLen : min (record ++ tail).length (NONCE_LEN + BLOCK_SIZE + TAG_LEN)
          = record.length := by
        rcases Nat.lt_or_ge pt.length BLOCK_SIZE with hlt | hge
        · have htake_all : pt.take BLOCK_SIZE = pt := List.take_of_length_le (by omega)
          have hdrop_nil : pt.drop BLOCK_SIZE = [] := List.drop_eq_nil_of_le (by omega)
          have : tail = [] := by rw [htail, hdrop_nil, encFrom_nil]
          rw [this, List.append_nil, hrec_len, htake_all]
          omega
        · have htake_len : (pt.take BLOCK_SIZE).length = BLOCK_SIZE := by
            rw [List.length_take]; omega
          rw [List.length_append, hrec_len, htake_len]
          omega
      rw [hrecLen]
      have htake_rec : (record ++ tail).take record.length = record := List.take_left record tail
      have hdrop_rec : (record ++ tail).drop record.length = tail := List.drop_left record tail
      have htake_nonce : (record ++ tail).take NONCE_LEN = nonces i := by
        rw [List.take_append_of_le_length (by rw [hrec_len]; omega)]
        rw [hrecord]
        unfold blockRecord
        rw [← hn i, List.take_left]
      have hbody : record.drop NONCE_LEN
          = sealBlock c key (nonces i) (blockAD i) (pt.take BLOCK_SIZE) := by
        rw [hrecord]
        unfold blockRecord
        rw [← hn i, List.drop_left]
      rw [htake_rec, htake_nonce, hbody]
      have hbytes_chunk : IsBytes (pt.take BLOCK_SIZE) := fun x hx =>
        hbytes x (List.mem_of_mem_take hx)
      rw [openBlock_sealBlock c key (nonces i) (pt.take BLOCK_SIZE) i hbytes_chunk]
      rw [hdrop_rec, htail]
      have hbytes_rest : IsBytes (pt.drop BLOCK_SIZE) := fun x hx =>
        hbytes x (List.mem_of_mem_drop hx)
      have hrest_le : (pt.drop BLOCK_SIZE).length ≤ fd := by
        rw [List.length_drop]
        simp only [hpt, List.length_cons] at h ⊢
        have : 1 ≤ BLOCK_SIZE := by norm_num [BLOCK_SIZE]
        omega
      rw [ih (pt.drop BLOCK_SIZE) (i + 1) hrest_le hbytes_rest]
      simp [List.take_append_drop]

theorem encFrom_length_ge (c : Cipher) (key : List Nat) (nonces : Nat → List Nat)
    (hn : ∀ j, (nonces j).length = NONCE_LEN) :
    ∀ fuel pt i, pt.length ≤ fuel → pt.length ≤ (encFrom c key nonces i pt).length := by
  intro fuel
  induction fuel with
  | zero =>
    intro pt i h
    have : pt = [] := List.length_eq_zero.mp (Nat.le_zero.mp h)
    subst this
    simp [encFrom_nil]
  | succ fuel ih =>
    intro pt i h
    cases hpt : pt with
    | nil => simp [encFrom_nil]
    | cons b rest =>
      subst hpt
      rw [encFrom_cons c key nonces i _ (by simp)]
      rw [List.length_append,
        blockRecord_length c key (nonces i) i _ (hn i)]
      have hrest : ((b :: rest).drop BLOCK_SIZE).length ≤ fuel := by
        rw [List.length_drop]
        simp only [List.length_cons] at h ⊢
        have : 1 ≤ BLOCK_SIZE := by norm_num [BLOCK_SIZE]
        omega
      have := ih ((b :: rest).drop BLOCK_SIZE) (i + 1) hrest
      rw [List.length_take] at *
      rw [List.length_drop] at this
      simp only [List.length_cons] at *
      omega

theorem decryptFile_encryptFile (c : Cipher) (key : List Nat) (nonces : Nat → List Nat)
    (pt : List Nat) (hpt : IsBytes pt) (hn : ∀ j, (nonces j).length = NONCE_LEN) :
    decryptFile c key (encryptFile c key nonces pt) = some pt := by
  unfold decryptFile encryptFile
  have henc : encryptBlocks c key nonces (pt.length + 1) 0 pt = encFrom c key nonces 0 pt := rfl
  rw [henc]
  apply decryptBlocks_encFrom c key nonces hn
  · have := encFrom_length_ge c key nonces hn (pt.length + 1) pt 0 (by omega)
    omega
  · exact hpt

/-- Modelled from the spec (section 4.4): the streaming crypto writer's state,
a partial-block plaintext buffer, the index of the next block, the ciphertext
written so far to the sink, and the misuse flag set by `finish`. -/
structure CryptoWriter where
  buf : List Nat
  blockIndex : Nat
  out : List Nat
  finished : Bool
deriving DecidableEq, Repr

/-- A freshly created streaming crypto writer (`crypto::create_write`). -/
def createWrite : CryptoWriter := ⟨[], 0, [], false⟩

/-- Flush every full plaintext block in the buffer as a ciphertext record,
incrementing the block index each time. -/
def flushFull (c : Cipher) (key : List Nat) (nonces : Nat → List Nat) :
    Nat → CryptoWriter → CryptoWriter
  | 0, w => w
  | fuel + 1, w =>
    if BLOCK_SIZE ≤ w.buf.length then
      flushFull c key nonces fuel
        { buf := w.buf.drop BLOCK_SIZE
          blockIndex := w.blockIndex + 1
          out := w.out
            ++ blockRecord c key (nonces w.blockIndex) w.blockIndex (w.buf.take BLOCK_SIZE)
          finished := w.finished }
    else w

/-- Outcome of a write call: either the updated writer, or a panic (fail-fast
misuse, never a runtime error). -/
inductive WriteResult where
  | ok : CryptoWriter → WriteResult
  | panicked : String → WriteResult
deriving DecidableEq, Repr

/-- Modelled from the spec (section 4.4) and `test_write_after_finish`:
`write_all` appends to the buffer and flushes whole blocks; calling it on an
already finished writer panics with the fixed message. -/
def writeAll (c : Cipher) (key : List Nat) (nonces : Nat → List Nat)
    (w : CryptoWriter) (data : List Nat) : WriteResult :=
  if w.finished then .panicked "write called on already finished writer"
  else .ok (flushFull c key nonces (w.buf.length + data.length) { w with buf := w.buf ++ data })

/-- Modelled from the spec (section 4.4): `finish` seals the non-empty buffer
as a final (possibly short) block, returns the sink contents and marks the
writer finished. -/
def finishWrite (c : Cipher) (key : List Nat) (nonces : Nat → List Nat)
    (w : CryptoWriter) : List Nat × CryptoWriter :=
  let out :=
    if w.buf.isEmpty then w.out
    else w.out ++ blockRecord c key (nonces w.blockIndex) w.blockIndex w.buf
  (out, ⟨[], w.blockIndex, out, true⟩)

theorem flushFull_zero (c : Cipher) (key : List Nat) (nonces : Nat → List Nat)
    (w : CryptoWriter) : flushFull c key nonces 0 w = w := rfl

theorem flushFull_succ (c : Cipher) (key : List Nat) (nonces : Nat → List Nat)
    (fuel : Nat) (w : CryptoWriter) :
    flushFull c key nonces (fuel + 1) w
      = if BLOCK_SIZE ≤ w.buf.length then
          flushFull c key nonces fuel
            { buf := w.buf.drop BLOCK_SIZE
              blockIndex := w.blockIndex + 1
              out := w.out
                ++ blockRecord c key (nonces w.blockIndex) w.blockIndex (w.buf.take BLOCK_SIZE)
              finished := w.finished }
        else w := rfl

theorem flushFull_finishWrite (c : Cipher) (key : List Nat) (nonces : Nat → List Nat) :
    ∀ fuel buf i out fin, buf.length ≤ fuel →
      (finishWrite c key nonces (flushFull c key nonces fuel ⟨buf, i, out, fin⟩)).1
        = out ++ encFrom c key nonces i buf := by
  intro fuel
  induction fuel with
  | zero =>
    intro buf i out fin h
    have : buf = [] := List.length_eq_zero.mp (Nat.le_zero.mp h)
    subst this
    simp [flushFull_zero, finishWrite, encFrom_nil]
  | succ fuel ih =>
    intro buf i out fin h
    rw [flushFull_succ]
    by_cases hfull : BLOCK_SIZE ≤ buf.length
    · rw [if_pos hfull]
      dsimp only
      have hlen : (buf.drop BLOCK_SIZE).length ≤ fuel := by
        rw [List.length_drop]
        have : 1 ≤ BLOCK_SIZE := by norm_num [BLOCK_SIZE]
        omega
      rw [ih (buf.drop BLOCK_SIZE) (i + 1) _ fin hlen]
      have hne : buf ≠ [] := by
        intro hcontra
        subst hcontra
        simp [BLOCK_SIZE] at hfull
      rw [encFrom_cons c key nonces i buf hne, List.append_assoc]
    · rw [if_neg hfull]
      by_cases hbuf : buf = []
      · subst hbuf
        simp [finishWrite, encFrom_nil]
      · have hlt : buf.length < BLOCK_SIZE := by omega
        rw [encFrom_cons c key nonces i buf hbuf]
        have htake : buf.take BLOCK_SIZE = buf := List.take_of_length_le (by omega)
        have hdrop : buf.drop BLOCK_SIZE = [] := List.drop_eq_nil_of_le (by omega)
        rw [htake, hdrop, encFrom_nil, List.append_nil]
        simp only [finishWrite]
        rw [if_neg (by simpa using hbuf)]

/-- C1: for every plaintext `P` (and either cipher), writing `P` through a
fresh streaming crypto writer and calling `finish` yields a ciphertext from
which a crypto reader with the same cipher and key reads back exactly `P`;
the statement covers every length, in particular sub-block, multi-block and
1 MiB plaintexts. -/
theorem write_read_roundtrip (c : Cipher) (key : List Nat) (nonces : Nat → List Nat)
    (P : List Nat) (hP : IsBytes P) (hn : ∀ j, (nonces j).length = NONCE_LEN)
    (w : CryptoWriter) (hw : writeAll c key nonces createWrite P = .ok w) :
    decryptFile c key (finishWrite c key nonces w).1 = some P := by
  unfold writeAll createWrite at hw
  simp only [if_neg (by simp : ¬ (false = true))] at hw
  have hw' : w = flushFull c key nonces P.length ⟨P, 0, [], false⟩ := by
    cases hw
    simp
  rw [hw']
  rw [flushFull_finishWrite c key nonces P.length P 0 [] false (by omega)]
  rw [List.nil_append]
  exact decryptFile_encryptFile c key nonces P hP hn

/-- Witness for C1: the three bytes `"hi!"` under AES-256-GCM with key `[7]`
round-trip through the streaming writer and reader. -/
theorem write_read_roundtrip_witness :
    writeAll .aes256Gcm [7] (fun _ => List.replicate NONCE_LEN 1) createWrite [104, 105, 33]
      = .ok ⟨[104, 105, 33], 0, [], false⟩ ∧
    decryptFile .aes256Gcm [7]
      (finishWrite .aes256Gcm [7] (fun _ => List.replicate NONCE_LEN 1)
        ⟨[104, 105, 33], 0, [], false⟩).1 = some [104, 105, 33] :=
  ⟨by decide,
   write_read_roundtrip .aes256Gcm [7] (fun _ => List.replicate NONCE_LEN 1) [104, 105, 33]
     (by decide) (fun _ => rfl) ⟨[104, 105, 33], 0, [], false⟩ (by decide)⟩

/-- C9: any write on a writer on which `finish` has been called is a program
error: it panics with the message "write called on already finished writer"
instead of returning an error value or writing. -/
theorem write_after_finish_panics (c : Cipher) (key : List Nat) (nonces : Nat → List Nat)
    (w : CryptoWriter) (data : List Nat) :
    writeAll c key nonces (finishWrite c key nonces w).2 data
      = .panicked "write called on already finished writer" := rfl

/-- Modelled from the spec (section 4.5): the seekable crypto writer presents
a random-access writable plaintext view over an existing ciphertext. The spec
(section 9) declares the exact materialization trigger for zero-fill
implementation-defined as long as the end state is observationally equal, so
the model tracks the plaintext view directly: `content` is the current
plaintext of length `L`, `pos` the plaintext cursor. -/
structure SeekCryptoWriter where
  content : List Nat
  pos : Nat
deriving DecidableEq, Repr

/-- Open a seekable writer over an existing ciphertext
(`crypto::create_write_seek`); fails on a corrupt file. -/
def openSeekWrite (c : Cipher) (key ct : List Nat) : Option SeekCryptoWriter :=
  (decryptFile c key ct).map (fun pt => ⟨pt, 0⟩)

/-- The three `SeekFrom` forms of the writer's seek operation. -/
inductive SeekFrom where
  | start : Nat → SeekFrom
  | current : Int → SeekFrom
  | fromEnd : Int → SeekFrom
deriving DecidableEq, Repr

/-- Move the cursor to plaintext position `p`; if `p` exceeds the current
length `L` the bytes in `[L, p)` become plaintext zeros (spec section 4.5). -/
def gotoPos (w : SeekCryptoWriter) (p : Nat) : SeekCryptoWriter :=
  ⟨w.content ++ List.replicate (p - w.content.length) 0, p⟩

/-- Modelled from the spec (section 4.5): `seek` computes the new position
from `Start`/`Current`/`End`; a negative resulting position is an
`InvalidInput` error (`none`). -/
def seekWrite (w : SeekCryptoWriter) : SeekFrom → Option SeekCryptoWriter
  | .start n => some (gotoPos w n)
  | .current d =>
    if (w.pos : Int) + d < 0 then none else some (gotoPos w ((w.pos : Int) + d).toNat)
  | .fromEnd d =>
    if (w.content.length : Int) + d < 0 then none
    else some (gotoPos w ((w.content.length : Int) + d).toNat)

/-- Modelled from the spec (section 4.5): `write` overwrites the plaintext
view at the cursor, extending the content when writing past the end, and
advances the cursor. -/
def writeSeek (w : SeekCryptoWriter) (data : List Nat) : SeekCryptoWriter :=
  ⟨w.content.take w.pos ++ data ++ w.content.drop (w.pos + data.length),
   w.pos + data.length⟩

/-- Modelled from the spec (section 4.5): `finish` persists the plaintext view
(all blocks re-sealed with fresh nonces) and returns the sink. -/
def finishSeek (c : Cipher) (key : List Nat) (nonces : Nat → List Nat)
    (w : SeekCryptoWriter) : List Nat :=
  encryptFile c key nonces w.content

/-- C2: opening a seekable crypto writer over a ciphertext whose plaintext is
`P` (length `N`), seeking to `End(k)` with `k > 0`, not writing, and calling
`finish` produces a file whose plaintext is `P` followed by `k` zero bytes:
its length is `N + k` and its final `k` bytes are all `0x00`. The statement
holds for every `k`, in particular `k` spanning multiple whole blocks such as
`10 * BLOCK_SIZE + 43`. -/
theorem seek_end_extends_with_zeros (c : Cipher) (key : List Nat)
    (nonces nonces2 : Nat → List Nat) (P : List Nat) (k : Nat) (hk : 0 < k)
    (hP : IsBytes P) (hn : ∀ j, (nonces j).length = NONCE_LEN)
    (hn2 : ∀ j, (nonces2 j).length = NONCE_LEN)
    (w0 w1 : SeekCryptoWriter)
    (hopen : openSeekWrite c key (encryptFile c key nonces P) = some w0)
    (hseek : seekWrite w0 (.fromEnd (k : Int)) = some w1) :
    decryptFile c key (finishSeek c key nonces2 w1) = some (P ++ List.replicate k 0) ∧
    (P ++ List.replicate k 0).length = P.length + k ∧
    (P ++ List.replicate k 0).drop P.length = List.replicate k 0 := by
  have hw0 : w0 = ⟨P, 0⟩ := by
    unfold openSeekWrite at hopen
    rw [decryptFile_encryptFile c key nonces P hP hn] at hopen
    simpa using hopen.symm
  subst hw0
  have hnonneg : ¬ ((P.length : Int) + (k : Int) < 0) := by
    push_neg
    positivity
  have hw1 : w1 = ⟨P ++ List.replicate k 0, P.length + k⟩ := by
    simp only [seekWrite, gotoPos] at hseek
    rw [if_neg hnonneg] at hseek
    have htoNat : ((P.length : Int) + (k : Int)).toNat = P.length + k := by omega
    rw [htoNat] at hseek
    simp only [Option.some.injEq] at hseek
    rw [← hseek]
    simp
  subst hw1
  refine ⟨?_, by simp, by simp⟩
  unfold finishSeek
  apply decryptFile_encryptFile c key nonces2 _ _ hn2
  intro b hb
  rcases List.mem_append.mp hb with hb | hb
  · exact hP b hb
  · have : b = 0 := List.eq_of_mem_replicate hb
    omega

/-- Witness for C2: a 3-byte file under ChaCha20-Poly1305 extended by
`k = 2` zero bytes via seek-to-`End(2)` followed by `finish`. -/
theorem seek_end_extends_with_zeros_witness :
    openSeekWrite .chaCha20Poly1305 [9]
        (encryptFile .chaCha20Poly1305 [9] (fun _ => List.replicate NONCE_LEN 3) [1, 2, 3])
      = some ⟨[1, 2, 3], 0⟩ ∧
    seekWrite ⟨[1, 2, 3], 0⟩ (.fromEnd (2 : Int)) = some ⟨[1, 2, 3, 0, 0], 5⟩ ∧
    decryptFile .chaCha20Poly1305 [9]
        (finishSeek .chaCha20Poly1305 [9] (fun _ => List.replicate NONCE_LEN 4)
          ⟨[1, 2, 3, 0, 0], 5⟩)
      = some ([1, 2, 3] ++ List.replicate 2 0) :=
  ⟨by decide, by decide,
   (seek_end_extends_with_zeros .chaCha20Poly1305 [9] (fun _ => List.replicate NONCE_LEN 3)
     (fun _ => List.replicate NONCE_LEN 4) [1, 2, 3] 2 (by decide) (by decide)
     (fun _ => rfl) (fun _ => rfl) ⟨[1, 2, 3], 0⟩ ⟨[1, 2, 3, 0, 0], 5⟩
     (by decide) (by decide)).1⟩

/-! Embedding of `src/arc_hashmap.rs`: a map whose entries are
`(Arc<V>, Arc<AtomicUsize>)` pairs handed out through `Holder`s. The state is
the list of `(key, value, refcount)` entries; a holder for `k` is accounted
for by the refcount of `k`'s entry (each `get_internal` increments it, each
`Holder::drop` decrements it and purges). -/

/-- State of an `ArcHashMap`: the entries of the inner `HashMap`, each with
its value and its atomic reference count. -/
structure ArcHashMap (K V : Type) where
  entries : List (K × V × Nat)
deriving DecidableEq, Repr

/-- `HashMap::get` on the entry list: the value and refcount stored for `k`. -/
def findEntry {K V : Type} [DecidableEq K] : List (K × V × Nat) → K → Option (V × Nat)
  | [], _ => none
  | e :: rest, k => if e.1 = k then some e.2 else findEntry rest k

/-- Apply `f` to the refcount of the entry for `k`, leaving key and value. -/
def adjustRC {K V : Type} [DecidableEq K] (f : Nat → Nat) (k : K) (e : K × V × Nat) :
    K × V × Nat :=
  if e.1 = k then (e.1, e.2.1, f e.2.2) else e

/-- `rc.fetch_add(1)` for key `k` (performed by `get_internal`). -/
def bumpRC {K V : Type} [DecidableEq K] (es : List (K × V × Nat)) (k : K) :
    List (K × V × Nat) :=
  es.map (adjustRC (· + 1) k)

/-- `rc.fetch_sub(1)` for key `k` (performed by `Holder::drop`). -/
def decRC {K V : Type} [DecidableEq K] (es : List (K × V × Nat)) (k : K) :
    List (K × V × Nat) :=
  es.map (adjustRC (· - 1) k)

/-- `map.entry(key).or_insert_with(|| (Arc::new(f()), 0))`: keep the existing
entry, or append a fresh one with refcount 0. -/
def orInsertWith {K V : Type} [DecidableEq K] (es : List (K × V × Nat)) (k : K)
    (f : Unit → V) : List (K × V × Nat) :=
  match findEntry es k with
  | some _ => es
  | none => es ++ [(k, f (), 0)]

/-- `ArcHashMap::get_or_insert_with`: or-insert under the write lock, then
`get_internal` increments the refcount and returns a holder of the stored
value. -/
def getOrInsertWith {K V : Type} [DecidableEq K] (m : ArcHashMap K V) (k : K)
    (f : Unit → V) : V × ArcHashMap K V :=
  let es1 := orInsertWith m.entries k f
  (((findEntry es1 k).map Prod.fst).getD (f ()), ⟨bumpRC es1 k⟩)

/-- `ArcHashMap::insert`, which delegates to `get_or_insert_with`. -/
def insertAHM {K V : Type} [DecidableEq K] (m : ArcHashMap K V) (k : K) (v : V) :
    V × ArcHashMap K V :=
  getOrInsertWith m k (fun _ => v)

/-- `ArcHashMap::get`: a holder of the present value (bumping its refcount),
or `none`. -/
def getAHM {K V : Type} [DecidableEq K] (m : ArcHashMap K V) (k : K) :
    Option V × ArcHashMap K V :=
  match findEntry m.entries k with
  | some (v, _) => (some v, ⟨bumpRC m.entries k⟩)
  | none => (none, m)

/-- The retain predicate of `purge`: keep entries whose refcount is positive. -/
def livePred {K V : Type} (e : K × V × Nat) : Bool := decide (0 < e.2.2)

/-- `ArcHashMap::purge`: `map.retain(|_, v| v.1.load() > 0)`. -/
def purgeAHM {K V : Type} (m : ArcHashMap K V) : ArcHashMap K V :=
  ⟨m.entries.filter livePred⟩

/-- `Holder::drop`: decrement the refcount of the held key, then purge. -/
def dropHolder {K V : Type} [DecidableEq K] (m : ArcHashMap K V) (k : K) :
    ArcHashMap K V :=
  purgeAHM ⟨decRC m.entries k⟩

/-- `ArcHashMap::len`. -/
def lenAHM {K V : Type} (m : ArcHashMap K V) : Nat := m.entries.length

/-- `ArcHashMap::is_empty`, defined as `len() == 0`. -/
def isEmptyAHM {K V : Type} (m : ArcHashMap K V) : Bool := decide (lenAHM m = 0)

/-- Number of live holders of key `k`, which the code stores as the entry's
refcount (0 when the key is absent). -/
def rcOf {K V : Type} [DecidableEq K] (m : ArcHashMap K V) (k : K) : Nat :=
  ((findEntry m.entries k).map Prod.snd).getD 0

/-- Whether the map contains an entry for `k`. -/
def containsAHM {K V : Type} [DecidableEq K] (m : ArcHashMap K V) (k : K) : Bool :=
  (findEntry m.entries k).isSome

/-- A public operation on the map: insert, get-or-insert, get, or the drop of
one holder of a key. -/
inductive MapOp (K V : Type) where
  | ins : K → V → MapOp K V
  | getOrIns : K → (Unit → V) → MapOp K V
  | get : K → MapOp K V
  | dropH : K → MapOp K V

/-- Execute one operation (discarding the returned holder, which is accounted
for in the refcount). -/
def runOp {K V : Type} [DecidableEq K] (m : ArcHashMap K V) : MapOp K V → ArcHashMap K V
  | .ins k v => (insertAHM m k v).2
  | .getOrIns k f => (getOrInsertWith m k f).2
  | .get k => (getAHM m k).2
  | .dropH k => dropHolder m k

/-- States reachable from the empty map by valid operation sequences; a holder
can only be dropped while one is outstanding. -/
inductive Reachable {K V : Type} [DecidableEq K] : ArcHashMap K V → Prop where
  | empty : Reachable ⟨[]⟩
  | insStep : ∀ {m : ArcHashMap K V} (k : K) (v : V), Reachable m →
      Reachable (insertAHM m k v).2
  | getOrInsStep : ∀ {m : ArcHashMap K V} (k : K) (f : Unit → V), Reachable m →
      Reachable (getOrInsertWith m k f).2
  | getStep : ∀ {m : ArcHashMap K V} (k : K), Reachable m → Reachable (getAHM m k).2
  | dropStep : ∀ {m : ArcHashMap K V} (k : K), Reachable m → 0 < rcOf m k →
      Reachable (dropHolder m k)

/-- Well-formedness of the map state: keys are distinct and every entry has a
positive refcount (no entry without a live holder survives a purge). -/
def WFMap {K V : Type} (m : ArcHashMap K V) : Prop :=
  (m.entries.map Prod.fst).Nodup ∧ ∀ e ∈ m.entries, 0 < e.2.2

theorem adjustRC_fst {K V : Type} [DecidableEq K] (f : Nat → Nat) (k : K)
    (e : K × V × Nat) : (adjustRC f k e).1 = e.1 := by
  unfold adjustRC
  split <;> rfl

theorem adjustRC_keys {K V : Type} [DecidableEq K] (f : Nat → Nat) (k : K)
    (es : List (K × V × Nat)) :
    (es.map (adjustRC f k)).map Prod.fst = es.map Prod.fst := by
  rw [List.map_map]
  exact List.map_congr_left (fun e _ => adjustRC_fst f k e)

theorem findEntry_cons {K V : Type} [DecidableEq K] (e : K × V × Nat)
    (rest : List (K × V × Nat)) (k : K) :
    findEntry (e :: rest) k = if e.1 = k then some e.2 else findEntry rest k := rfl

theorem findEntry_map_adjust {K V : Type} [DecidableEq K] (f : Nat → Nat) (k' : K) :
    ∀ (es : List (K × V × Nat)) (k : K),
      findEntry (es.map (adjustRC f k')) k
        = (findEntry es k).map (fun p => if k = k' then (p.1, f p.2) else p) := by
  intro es
  induction es with
  | nil => intro k; rfl
  | cons e rest ih =>
    intro k
    rw [List.map_cons, findEntry_cons, findEntry_cons, adjustRC_fst]
    by_cases hek : e.1 = k
    · rw [if_pos hek, if_pos hek]
      by_cases hkk : k = k'
      · have he' : e.1 = k' := hek.trans hkk
        simp [adjustRC, he', hkk]
      · have he' : ¬ e.1 = k' := fun h => hkk (hek.symm.trans h)
        simp [adjustRC, he', hkk]
    · rw [if_neg hek, if_neg hek, ih k]

theorem findEntry_append_of_some {K V : Type} [DecidableEq K]
    (es es2 : List (K × V × Nat)) (k : K) (x : V × Nat) (h : findEntry es k = some x) :
    findEntry (es ++ es2) k = some x := by
  induction es with
  | nil => exact absurd h (by simp [findEntry])
  | cons e rest ih =>
    rw [findEntry_cons] at h
    rw [List.cons_append, findEntry_cons]
    by_cases hek : e.1 = k
    · rw [if_pos hek] at h ⊢
      exact h
    · rw [if_neg hek] at h ⊢
      exact ih h

theorem findEntry_append_of_none {K V : Type} [DecidableEq K]
    (es es2 : List (K × V × Nat)) (k : K) (h : findEntry es k = none) :
    findEntry (es ++ es2) k = findEntry es2 k := by
  induction es with
  | nil => rfl
  | cons e rest ih =>
    rw [findEntry_cons] at h
    rw [List.cons_append, findEntry_cons]
    by_cases hek : e.1 = k
    · rw [if_pos hek] at h
      exact Option.noConfusion h
    · rw [if_neg hek] at h ⊢
      exact ih h

theorem findEntry_none_of_not_mem {K V : Type} [DecidableEq K]
    (es : List (K × V × Nat)) (k : K) (h : k ∉ es.map Prod.fst) :
    findEntry es k = none := by
  induction es with
  | nil => rfl
  | cons e rest ih =>
    simp only [List.map_cons, List.mem_cons, not_or] at h
    rw [findEntry_cons, if_neg (fun hc => h.1 hc.symm)]
    exact ih h.2

theorem findEntry_mem_keys {K V : Type} [DecidableEq K]
    (es : List (K × V × Nat)) (k : K) (x : V × Nat) (h : findEntry es k = some x) :
    k ∈ es.map Prod.fst := by
  by_contra hmem
  rw [findEntry_none_of_not_mem es k hmem] at h
  exact Option.noConfusion h

theorem not_mem_of_findEntry_none {K V : Type} [DecidableEq K]
    (es : List (K × V × Nat)) (k : K) (h : findEntry es k = none) :
    k ∉ es.map Prod.fst := by
  induction es with
  | nil => simp
  | cons e rest ih =>
    rw [findEntry_cons] at h
    by_cases hek : e.1 = k
    · rw [if_pos hek] at h
      exact Option.noConfusion h
    · rw [if_neg hek] at h
      simp only [List.map_cons, List.mem_cons, not_or]
      exact ⟨fun hc => hek hc.symm, ih h⟩

theorem wf_getOrIns {K V : Type} [DecidableEq K] (m : ArcHashMap K V) (k : K)
    (f : Unit → V) (h : WFMap m) : WFMap (getOrInsertWith m k f).2 := by
  obtain ⟨hnd, hpos⟩ := h
  unfold getOrInsertWith
  dsimp only
  constructor
  · show ((bumpRC (orInsertWith m.entries k f) k).map Prod.fst).Nodup
    unfold bumpRC
    rw [adjustRC_keys]
    unfold orInsertWith
    cases hfe : findEntry m.entries k with
    | some x => exact hnd
    | none =>
      have hk : k ∉ m.entries.map Prod.fst := not_mem_of_findEntry_none m.entries k hfe
      simp only [List.map_append, List.map_cons, List.map_nil]
      rw [List.nodup_append]
      exact ⟨hnd, List.nodup_singleton k, by
        intro a ha hb
        simp only [List.mem_singleton] at hb
        subst hb
        exact hk ha⟩
  · intro e' he'
    unfold bumpRC at he'
    rcases List.mem_map.mp he' with ⟨e, he, hadj⟩
    subst hadj
    unfold adjustRC
    by_cases hek : e.1 = k
    · rw [if_pos hek]
      simp
    · rw [if_neg hek]
      unfold orInsertWith at he
      cases hfe : findEntry m.entries k with
      | some x =>
        rw [hfe] at he
        exact hpos e he
      | none =>
        rw [hfe] at he
        rcases List.mem_append.mp he with he | he
        · exact hpos e he
        · simp only [List.mem_singleton] at he
          subst he
          exact absurd rfl hek

theorem wf_get {K V : Type} [DecidableEq K] (m : ArcHashMap K V) (k : K)
    (h : WFMap m) : WFMap (getAHM m k).2 := by
  obtain ⟨hnd, hpos⟩ := h
  unfold getAHM
  cases hfe : findEntry m.entries k with
  | none => exact ⟨hnd, hpos⟩
  | some x =>
    cases x with
    | mk v rc =>
      dsimp only
      constructor
      · show ((bumpRC m.entries k).map Prod.fst).Nodup
        unfold bumpRC
        rw [adjustRC_keys]
        exact hnd
      · intro e' he'
        unfold bumpRC at he'
        rcases List.mem_map.mp he' with ⟨e, he, hadj⟩
        subst hadj
        unfold adjustRC
        by_cases hek : e.1 = k
        · rw [if_pos hek]; simp
        · rw [if_neg hek]; exact hpos e he

theorem wf_drop {K V : Type} [DecidableEq K] (m : ArcHashMap K V) (k : K)
    (h : WFMap m) : WFMap (dropHolder m k) := by
  obtain ⟨hnd, _⟩ := h
  unfold dropHolder purgeAHM
  constructor
  · dsimp only
    have hsub : List.Sublist (((decRC m.entries k).filter livePred).map Prod.fst)
        ((decRC m.entries k).map Prod.fst) :=
      (List.filter_sublist _).map Prod.fst
    have hnd2 : ((decRC m.entries k).map Prod.fst).Nodup := by
      unfold decRC
      rw [adjustRC_keys]
      exact hnd
    exact hnd2.sublist hsub
  · intro e he
    dsimp only at he
    have := List.of_mem_filter he
    unfold livePred at this
    exact of_decide_eq_true this

theorem reachable_wf {K V : Type} [DecidableEq K] (m : ArcHashMap K V)
    (h : Reachable m) : WFMap m := by
  induction h with
  | empty => exact ⟨List.nodup_nil, by intro e he; exact absurd he (List.not_mem_nil e)⟩
  | insStep k v _ ih => exact wf_getOrIns _ k _ ih
  | getOrInsStep k f _ ih => exact wf_getOrIns _ k f ih
  | getStep k _ ih => exact wf_get _ k ih
  | dropStep k _ _ ih => exact wf_drop _ k ih

theorem decRC_eq_self_of_not_mem {K V : Type} [DecidableEq K]
    (es : List (K × V × Nat)) (k : K) (h : k ∉ es.map Prod.fst) : decRC es k = es := by
  unfold decRC
  have hid : ∀ e ∈ es, adjustRC (· - 1) k e = id e := by
    intro e he
    unfold adjustRC
    rw [if_neg (fun hc => h (List.mem_map.mpr ⟨e, he, hc⟩))]
    rfl
  rw [List.map_congr_left hid, List.map_id]

theorem filter_live_of_all_pos {K V : Type} (es : List (K × V × Nat))
    (h : ∀ e ∈ es, 0 < e.2.2) : es.filter livePred = es :=
  List.filter_eq_self.mpr (fun e he => decide_eq_true (h e he))

theorem findEntry_filter_nodup {K V : Type} [DecidableEq K] :
    ∀ (es : List (K × V × Nat)) (k : K), ((es.map Prod.fst).Nodup) →
      ∀ x, findEntry (es.filter livePred) k = some x → findEntry es k = some x := by
  intro es
  induction es with
  | nil => intro k _ x h; exact absurd h (by simp [findEntry])
  | cons e rest ih =>
    intro k hnd x h
    simp only [List.map_cons, List.nodup_cons] at hnd
    rw [findEntry_cons]
    by_cases hp : livePred e
    · rw [List.filter_cons_of_pos hp, findEntry_cons] at h
      by_cases hek : e.1 = k
      · rw [if_pos hek] at h ⊢
        exact h
      · rw [if_neg hek] at h ⊢
        exact ih k hnd.2 x h
    · rw [List.filter_cons_of_neg hp] at h
      by_cases hek : e.1 = k
      · exfalso
        have hkmem : k ∈ (rest.filter livePred).map Prod.fst :=
          findEntry_mem_keys _ k x h
        have hsub : List.Sublist ((rest.filter livePred).map Prod.fst)
            (rest.map Prod.fst) :=
          (List.filter_sublist _).map Prod.fst
        exact hnd.1 (hek ▸ hsub.subset hkmem)
      · rw [if_neg hek]
        exact ih k hnd.2 x h

theorem dropHolder_last {K V : Type} [DecidableEq K] :
    ∀ (es : List (K × V × Nat)) (k : K) (v : V), ((es.map Prod.fst).Nodup) →
      (∀ e ∈ es, 0 < e.2.2) → findEntry es k = some (v, 1) →
      findEntry ((decRC es k).filter livePred) k = none ∧
      ((decRC es k).filter livePred).length + 1 = es.length := by
  intro es
  induction es with
  | nil => intro k v _ _ h; exact absurd h (by simp [findEntry])
  | cons e rest ih =>
    intro k v hnd hpos h
    simp only [List.map_cons, List.nodup_cons] at hnd
    rw [findEntry_cons] at h
    unfold decRC
    rw [List.map_cons]
    by_cases hek : e.1 = k
    · rw [if_pos hek] at h
      have he2 : e.2 = (v, 1) := by
        injection h
      have hadj : adjustRC (· - 1) k e = (e.1, v, 0) := by
        unfold adjustRC
        rw [if_pos hek, he2]
        rfl
      rw [hadj]
      have hlive : ¬ (livePred ((e.1, v, 0) : K × V × Nat) = true) := by
        unfold livePred
        simp
      rw [List.filter_cons_of_neg (by simpa using hlive)]
      have hrest : rest.map (adjustRC (· - 1) k) = rest := by
        have := decRC_eq_self_of_not_mem rest k (hek ▸ hnd.1)
        unfold decRC at this
        exact this
      rw [hrest]
      have hall : ∀ x ∈ rest, 0 < x.2.2 := fun x hx => hpos x (List.mem_cons_of_mem e hx)
      rw [filter_live_of_all_pos rest hall]
      refine ⟨findEntry_none_of_not_mem rest k (hek ▸ hnd.1), by simp⟩
    · rw [if_neg hek] at h
      have hepos : 0 < e.2.2 := hpos e (List.mem_cons_self e rest)
      have hadj : adjustRC (· - 1) k e = e := by
        unfold adjustRC
        rw [if_neg hek]
      rw [hadj]
      have hlive : livePred e = true := decide_eq_true hepos
      rw [List.filter_cons_of_pos hlive]
      have hall : ∀ x ∈ rest, 0 < x.2.2 := fun x hx => hpos x (List.mem_cons_of_mem e hx)
      obtain ⟨h1, h2⟩ := ih k v hnd.2 hall h
      unfold decRC at h1 h2
      refine ⟨?_, by simpa using h2⟩
      rw [findEntry_cons, if_neg hek]
      exact h1

/-- C5: in every reachable holder-map state, (a) while at least one holder for
`k` is alive the map contains an entry for `k`, so `len() ≥ 1` and
`is_empty()` is false; (b) dropping the last outstanding holder for `k`
removes `k`'s entry and decreases `len()` by exactly one; and (c) `len()`
never counts an entry with zero live holders. -/
theorem holder_map_retention {K V : Type} [DecidableEq K] (m : ArcHashMap K V)
    (h : Reachable m) (k : K) :
    (0 < rcOf m k → containsAHM m k = true ∧ 1 ≤ lenAHM m ∧ isEmptyAHM m = false) ∧
    (rcOf m k = 1 → containsAHM (dropHolder m k) k = false ∧
      lenAHM (dropHolder m k) + 1 = lenAHM m) ∧
    (∀ e ∈ m.entries, 0 < e.2.2) := by
  obtain ⟨hnd, hpos⟩ := reachable_wf m h
  refine ⟨?_, ?_, hpos⟩
  · intro hrc
    cases hfe : findEntry m.entries k with
    | none =>
      exfalso
      unfold rcOf at hrc
      rw [hfe] at hrc
      simp at hrc
    | some x =>
      have hmem : k ∈ m.entries.map Prod.fst := findEntry_mem_keys m.entries k x hfe
      have hne : m.entries ≠ [] := by
        intro hc
        rw [hc] at hmem
        simp at hmem
      have hlen : 1 ≤ lenAHM m := by
        unfold lenAHM
        cases hes : m.entries with
        | nil => exact absurd hes hne
        | cons a l => simp
      refine ⟨by unfold containsAHM; rw [hfe]; rfl, hlen, ?_⟩
      unfold isEmptyAHM
      simp only [decide_eq_false_iff_not]
      omega
  · intro hrc
    cases hfe : findEntry m.entries k with
    | none =>
      exfalso
      unfold rcOf at hrc
      rw [hfe] at hrc
      simp at hrc
    | some x =>
      cases x with
      | mk v rc =>
        have hrc1 : rc = 1 := by
          unfold rcOf at hrc
          rw [hfe] at hrc
          simpa using hrc
        subst hrc1
        obtain ⟨h1, h2⟩ := dropHolder_last m.entries k v hnd hpos hfe
        constructor
        · unfold containsAHM dropHolder purgeAHM
          dsimp only
          rw [h1]
          rfl
        · unfold lenAHM dropHolder purgeAHM
          exact h2

/-- Witness for C5 at the reachable one-entry map produced by
`insert(1, 5)` on the empty map. -/
theorem holder_map_retention_witness :
    Reachable (⟨[(1, 5, 1)]⟩ : ArcHashMap Nat Nat) ∧
    ((0 < rcOf (⟨[(1, 5, 1)]⟩ : ArcHashMap Nat Nat) 1 →
        containsAHM (⟨[(1, 5, 1)]⟩ : ArcHashMap Nat Nat) 1 = true ∧
        1 ≤ lenAHM (⟨[(1, 5, 1)]⟩ : ArcHashMap Nat Nat) ∧
        isEmptyAHM (⟨[(1, 5, 1)]⟩ : ArcHashMap Nat Nat) = false) ∧
      (rcOf (⟨[(1, 5, 1)]⟩ : ArcHashMap Nat Nat) 1 = 1 →
        containsAHM (dropHolder (⟨[(1, 5, 1)]⟩ : ArcHashMap Nat Nat) 1) 1 = false ∧
        lenAHM (dropHolder (⟨[(1, 5, 1)]⟩ : ArcHashMap Nat Nat) 1) + 1
          = lenAHM (⟨[(1, 5, 1)]⟩ : ArcHashMap Nat Nat)) ∧
      (∀ e ∈ (⟨[(1, 5, 1)]⟩ : ArcHashMap Nat Nat).entries, 0 < e.2.2)) := by
  have heq : (insertAHM (⟨[]⟩ : ArcHashMap Nat Nat) 1 5).2 = ⟨[(1, 5, 1)]⟩ := by decide
  have hreach : Reachable (⟨[(1, 5, 1)]⟩ : ArcHashMap Nat Nat) :=
    heq ▸ Reachable.insStep 1 5 Reachable.empty
  exact ⟨hreach, holder_map_retention _ hreach 1⟩

/-- C4: in every reachable holder-map state in which `k` is present with value
`v`, `insert(k, v2)` and `get_or_insert_with(k, f)` both return a holder of
the already stored `v` (ignoring `v2`, and independent of `f`, which is never
called), merely incrementing the refcount; and no operation ever replaces the
stored value of a surviving entry. -/
theorem holder_map_no_overwrite {K V : Type} [DecidableEq K] (m : ArcHashMap K V)
    (hre : Reachable m) (k : K) (v : V) (rc : Nat) (f g : Unit → V) (v2 : V)
    (hfind : findEntry m.entries k = some (v, rc)) :
    (getOrInsertWith m k f).1 = v ∧
    getOrInsertWith m k f = getOrInsertWith m k g ∧
    (insertAHM m k v2).1 = v ∧
    findEntry (getOrInsertWith m k f).2.entries k = some (v, rc + 1) ∧
    findEntry (insertAHM m k v2).2.entries k = some (v, rc + 1) ∧
    (∀ (op : MapOp K V) (v' : V) (rc' : Nat),
      findEntry (runOp m op).entries k = some (v', rc') → v' = v) := by
  obtain ⟨hnd, _⟩ := reachable_wf m hre
  have hor : ∀ (f' : Unit → V), orInsertWith m.entries k f' = m.entries := by
    intro f'
    unfold orInsertWith
    rw [hfind]
  have hret : ∀ (f' : Unit → V), (getOrInsertWith m k f').1 = v := by
    intro f'
    unfold getOrInsertWith
    dsimp only
    rw [hor f', hfind]
    rfl
  have hbump : findEntry (bumpRC m.entries k) k = some (v, rc + 1) := by
    unfold bumpRC
    rw [findEntry_map_adjust, hfind]
    simp
  have hstate : ∀ (f' : Unit → V),
      (getOrInsertWith m k f').2.entries = bumpRC m.entries k := by
    intro f'
    unfold getOrInsertWith
    dsimp only
    rw [hor f']
  have hvalue_adj : ∀ (fn : Nat → Nat) (k2 : K) (es : List (K × V × Nat)) (v' : V)
      (rc' : Nat), findEntry es k = some (v, rc) →
      findEntry (es.map (adjustRC fn k2)) k = some (v', rc') → v' = v := by
    intro fn k2 es v' rc' hes hmap
    rw [findEntry_map_adjust fn k2 es k, hes] at hmap
    simp only [Option.map_some'] at hmap
    by_cases hkk : k = k2
    · rw [if_pos hkk] at hmap
      exact (congrArg Prod.fst (Option.some.inj hmap)).symm
    · rw [if_neg hkk] at hmap
      exact (congrArg Prod.fst (Option.some.inj hmap)).symm
  refine ⟨hret f, ?_, hret (fun _ => v2), by rw [hstate f]; exact hbump,
    by unfold insertAHM; rw [hstate (fun _ => v2)]; exact hbump, ?_⟩
  · unfold getOrInsertWith
    dsimp only
    rw [hor f, hor g, hfind]
    rfl
  · intro op v' rc' hafter
    cases op with
    | ins k2 v2' =>
      unfold runOp insertAHM getOrInsertWith at hafter
      dsimp only at hafter
      have hes1 : findEntry (orInsertWith m.entries k2 (fun _ => v2')) k = some (v, rc) := by
        unfold orInsertWith
        cases hf2 : findEntry m.entries k2 with
        | some y => exact hfind
        | none => exact findEntry_append_of_some _ _ k _ hfind
      exact hvalue_adj _ k2 _ v' rc' hes1 hafter
    | getOrIns k2 f2 =>
      unfold runOp getOrInsertWith at hafter
      dsimp only at hafter
      have hes1 : findEntry (orInsertWith m.entries k2 f2) k = some (v, rc) := by
        unfold orInsertWith
        cases hf2 : findEntry m.entries k2 with
        | some y => exact hfind
        | none => exact findEntry_append_of_some _ _ k _ hfind
      exact hvalue_adj _ k2 _ v' rc' hes1 hafter
    | get k2 =>
      simp only [runOp] at hafter
      cases hf2 : findEntry m.entries k2 with
      | none =>
        have hst : (getAHM m k2).2 = m := by
          unfold getAHM
          rw [hf2]
        rw [hst, hfind] at hafter
        exact (congrArg Prod.fst (Option.some.inj hafter)).symm
      | some y =>
        obtain ⟨vy, rcy⟩ := y
        have hst : (getAHM m k2).2 = ⟨bumpRC m.entries k2⟩ := by
          unfold getAHM
          rw [hf2]
        rw [hst] at hafter
        exact hvalue_adj _ k2 _ v' rc' hfind hafter
    | dropH k2 =>
      unfold runOp dropHolder purgeAHM at hafter
      dsimp only at hafter
      have hnd2 : ((decRC m.entries k2).map Prod.fst).Nodup := by
        unfold decRC
        rw [adjustRC_keys]
        exact hnd
      have hdec : findEntry (decRC m.entries k2) k = some (v', rc') :=
        findEntry_filter_nodup _ k hnd2 _ hafter
      exact hvalue_adj _ k2 _ v' rc' hfind hdec

/-- Witness for C4 at the reachable one-entry map produced by
`insert(1, 5)`, with competing value 9 and provider closures returning 7
and 8. -/
theorem holder_map_no_overwrite_witness :
    findEntry (⟨[(1, 5, 1)]⟩ : ArcHashMap Nat Nat).entries 1 = some (5, 1) ∧
    (getOrInsertWith (⟨[(1, 5, 1)]⟩ : ArcHashMap Nat Nat) 1 (fun _ => 7)).1 = 5 ∧
    (insertAHM (⟨[(1, 5, 1)]⟩ : ArcHashMap Nat Nat) 1 9).1 = 5 ∧
    findEntry (insertAHM (⟨[(1, 5, 1)]⟩ : ArcHashMap Nat Nat) 1 9).2.entries 1
      = some (5, 2) := by
  have heq : (insertAHM (⟨[]⟩ : ArcHashMap Nat Nat) 1 5).2 = ⟨[(1, 5, 1)]⟩ := by decide
  have hreach : Reachable (⟨[(1, 5, 1)]⟩ : ArcHashMap Nat Nat) :=
    heq ▸ Reachable.insStep 1 5 Reachable.empty
  have h := holder_map_no_overwrite (⟨[(1, 5, 1)]⟩ : ArcHashMap Nat Nat) hreach 1 5 1
    (fun _ => 7) (fun _ => 8) 9 (by decide)
  exact ⟨by decide, h.1, h.2.2.1, h.2.2.2.2.1⟩

/-! Embedding of `src/expire_value.rs`: a single-slot cache holding
`Arc<T>` values with a TTL cache plus a weak back-reference. Values are
identified by a generation number; each provider call produces a fresh
generation. `extRefs` counts the external strong references to the current
value; the timed cache entry, while present, holds one further strong
reference, so the weak upgrade succeeds while `extRefs > 0` or the cache entry
survives. -/

/-- State of an `ExpireValue`: the generation of the last provided value,
whether the timed cache still holds it, whether the weak slot points at it,
and how many external strong references to it exist. -/
structure EVState where
  gen : Nat
  cacheHas : Bool
  weakSet : Bool
  extRefs : Nat
deriving DecidableEq, Repr

/-- The state of a freshly constructed `ExpireValue`: empty cache, weak slot
`None`, no value provided yet. -/
def initialEV : EVState := ⟨0, false, false, 0⟩

/-- `ExpireValue::get_from_ref_or_cache`: under the read lock, upgrade the
weak reference (success while any strong reference — external or the cache's
own — survives); on failure, look the value up in the timed cache. A
successful return clones the `Arc`, adding one external strong reference. -/
def getFromRefOrCache (s : EVState) : Option EVState :=
  if s.weakSet then
    if 0 < s.extRefs ∨ s.cacheHas = true then some { s with extRefs := s.extRefs + 1 }
    else if s.cacheHas then some { s with extRefs := s.extRefs + 1 }
    else none
  else none

/-- `ExpireValue::get`: return the shared value on a reference or cache hit;
otherwise call the provider (`fail` selects its outcome), insert the new value
into the timed cache and replace the weak reference. The first component is
the returned generation or the propagated provider error. -/
def getEV (s : EVState) (fail : Bool) : Except Unit Nat × EVState :=
  match getFromRefOrCache s with
  | some s' => (.ok s.gen, s')
  | none =>
    if fail then (.error (), s)
    else (.ok (s.gen + 1), ⟨s.gen + 1, true, true, 1⟩)

/-- One external owner drops its strong reference to the current value. -/
def dropRefEV (s : EVState) : EVState := { s with extRefs := s.extRefs - 1 }

/-- The timed cache entry expires (monitor sweep after the TTL) or is removed
by `clear()`; the weak reference survives. -/
def expireEV (s : EVState) : EVState := { s with cacheHas := false }

/-- C7: whenever an external owner still holds a strong reference to the
previously provided value, `get()` returns that same shared value through the
weak reference — independently of whether the timed cache entry has expired
and even with a failing provider, so the provider is not invoked — and merely
adds a strong reference; once the last strong reference is dropped and the
timed cache entry is gone, the next `get()` invokes the provider again
(producing a fresh generation). -/
theorem secret_cache_weak_retention (s : EVState) (fail : Bool)
    (hw : s.weakSet = true) (hr : 0 < s.extRefs) :
    getEV s fail = (.ok s.gen, { s with extRefs := s.extRefs + 1 }) ∧
    (∀ t : EVState, t.extRefs = 0 → t.cacheHas = false →
      getEV t false = (.ok (t.gen + 1), ⟨t.gen + 1, true, true, 1⟩)) := by
  constructor
  · unfold getEV getFromRefOrCache
    rw [if_pos hw, if_pos (Or.inl hr)]
  · intro t href hcache
    unfold getEV getFromRefOrCache
    have hmiss : ¬ (0 < t.extRefs ∨ t.cacheHas = true) := by
      rw [href, hcache]
      simp
    by_cases hwt : t.weakSet = true
    · rw [if_pos hwt, if_neg hmiss, if_neg (by rw [hcache]; simp)]
      rfl
    · rw [if_neg hwt]
      rfl

/-- Witness for C7 at a state with one live external reference and an expired
cache entry, probed with a failing provider. -/
theorem secret_cache_weak_retention_witness :
    (⟨3, false, true, 1⟩ : EVState).weakSet = true ∧
    0 < (⟨3, false, true, 1⟩ : EVState).extRefs ∧
    getEV ⟨3, false, true, 1⟩ true = (.ok 3, ⟨3, false, true, 2⟩) ∧
    getEV ⟨5, false, true, 0⟩ false = (.ok 6, ⟨6, true, true, 1⟩) :=
  ⟨rfl, by decide,
    (secret_cache_weak_retention ⟨3, false, true, 1⟩ true rfl (by decide)).1,
    (secret_cache_weak_retention ⟨3, false, true, 1⟩ true rfl (by decide)).2
      ⟨5, false, true, 0⟩ rfl rfl⟩

/-- C10: from any state in which neither the weak reference nor the timed
cache yields a value, `get()` with a failing provider propagates the error and
leaves the cache state completely unchanged — nothing is inserted into the
timed cache and the weak slot is untouched — and a subsequent `get()` invokes
the provider again exactly as if the failed call had never happened. -/
theorem secret_cache_error_propagation (s : EVState)
    (hmiss : getFromRefOrCache s = none) :
    getEV s true = (.error (), s) ∧
    getEV s false = getEV (getEV s true).2 false ∧
    (getEV s false).1 = .ok (s.gen + 1) := by
  have h1 : getEV s true = (.error (), s) := by
    unfold getEV
    rw [hmiss]
    rfl
  have h2 : getEV s false = (.ok (s.gen + 1), ⟨s.gen + 1, true, true, 1⟩) := by
    unfold getEV
    rw [hmiss]
    rfl
  exact ⟨h1, by rw [h1], by rw [h2]⟩

/-- Witness for C10 at the initial state of a fresh cache (as in the
`test_error_propagation` test). -/
theorem secret_cache_error_propagation_witness :
    getFromRefOrCache initialEV = none ∧
    getEV initialEV true = (.error (), initialEV) ∧
    (getEV initialEV false).1 = .ok 1 :=
  ⟨by decide, (secret_cache_error_propagation initialEV (by decide)).1,
    (secret_cache_error_propagation initialEV (by decide)).2.2⟩

/-- Phase of one task running `ExpireValue::get`: not yet started; observed a
cache miss (its `get_from_ref_or_cache` returned `None`, the read lock is
released and the provider call is next); or completed. -/
inductive TaskPhase where
  | idle : TaskPhase
  | missed : TaskPhase
  | complete : TaskPhase
deriving DecidableEq, Repr

/-- Global state of `n` tasks concurrently calling `get()` on one shared
`ExpireValue`: the shared cache state, every task's phase, and the number of
provider invocations so far. -/
structure ConcState where
  ev : EVState
  tasks : List TaskPhase
  calls : Nat
deriving DecidableEq, Repr

/-- `n` tasks about to call `get()` on a fresh cache. -/
def initConc (n : Nat) : ConcState := ⟨initialEV, List.replicate n .idle, 0⟩

/-- Run the next atomic step of task `t`; steps are delimited by the await
points of `get` (the read-locked check is one step, the provider call plus
cache insert plus weak replacement the next). -/
def stepTask (cs : ConcState) (t : Nat) : ConcState :=
  match cs.tasks.get? t with
  | none => cs
  | some .idle =>
    match getFromRefOrCache cs.ev with
    | some ev' => ⟨ev', cs.tasks.set t .complete, cs.calls⟩
    | none => ⟨cs.ev, cs.tasks.set t .missed, cs.calls⟩
  | some .missed =>
    ⟨⟨cs.ev.gen + 1, true, true, 1⟩, cs.tasks.set t .complete, cs.calls + 1⟩
  | some .complete => cs

/-- Run the steps named by a schedule of task indices. -/
def runSched (cs : ConcState) : List Nat → ConcState
  | [] => cs
  | t :: rest => runSched (stepTask cs t) rest

/-- C6 counterexample: two tasks starting on a fresh cache, interleaved as
check(0), check(1), provide(0), provide(1) — every step a legal suspension
point of `get()` — both complete, yet the provider runs twice; the serialized
schedule check(0), provide(0), check(1) of the same two tasks yields exactly
one provider call, as the test scheduler does. -/
theorem secret_cache_single_flight_cex :
    runSched (initConc 2) [0, 1, 0, 1]
      = ⟨⟨2, true, true, 1⟩, [.complete, .complete], 2⟩ ∧
    (runSched (initConc 2) [0, 1, 0, 1]).calls ≠ 1 ∧
    (runSched (initConc 2) [0, 0, 1]).tasks = [.complete, .complete] ∧
    (runSched (initConc 2) [0, 0, 1]).calls = 1 := by decide

/-! Embedding of the `setattr` handler of `encryptedfs_fuse3.rs`. The
observable modelled is the sparse attribute patch the handler passes to
`update_inode` (or the errno it returns instead). -/

/-- `libc::S_ISUID`. -/
def S_ISUID : Nat := 0o4000

/-- `libc::S_ISGID`. -/
def S_ISGID : Nat := 0o2000

/-- `libc::S_IXUSR`. -/
def S_IXUSR : Nat := 0o100

/-- `libc::S_IXGRP`. -/
def S_IXGRP : Nat := 0o10

/-- `libc::S_IXOTH`. -/
def S_IXOTH : Nat := 0o1

/-- `libc::EPERM`. -/
def EPERM : Nat := 1

/-- `libc::EACCES`. -/
def EACCES : Nat := 13

/-- `libc::W_OK`. -/
def W_OK : Nat := 2

/-- Bitwise complement of a 16-bit mask (`!m as u16` for single-bit masks). -/
def not16 (m : Nat) : Nat := 65535 - m

/-- Bitwise complement of a 32-bit mask (`!m as u32` for single-bit masks). -/
def not32 (m : Nat) : Nat := 4294967295 - m

/-- `clear_suid_sgid`: clear SUID always, and SGID only when XGRP is set. -/
def clear_suid_sgid (perm : Nat) : Nat :=
  let p1 := perm &&& not16 S_ISUID
  if p1 &&& S_IXGRP ≠ 0 then p1 &&& not16 S_ISGID else p1

/-- `check_access`: POSIX-style permission check against the file mode bits
(`F_OK = 0`, root may read and write anything and execute when any X bit is
set). -/
def check_access (file_uid file_gid : Nat) (file_mode : Nat) (uid gid : Nat)
    (access_mask : Nat) : Bool :=
  if access_mask = 0 then true
  else if uid = 0 then
    let a1 := access_mask &&& 1
    let a2 := a1 - (a1 &&& (file_mode >>> 6))
    let a3 := a2 - (a2 &&& (file_mode >>> 3))
    let a4 := a3 - (a3 &&& file_mode)
    decide (a4 = 0)
  else
    let a1 :=
      if uid = file_uid then access_mask - (access_mask &&& (file_mode >>> 6))
      else if gid = file_gid then access_mask - (access_mask &&& (file_mode >>> 3))
      else access_mask - (access_mask &&& file_mode)
    decide (a1 = 0)

/-- The caller identity of a FUSE request: `req.uid`, `req.gid`, and the
supplementary groups that `get_groups(req.pid)` reads from `/proc`. -/
structure FuseReq where
  uid : Nat
  gid : Nat
  groups : List Nat
deriving DecidableEq, Repr

/-- The inode attribute fields consulted by `setattr`. -/
structure InodeAttr where
  uid : Nat
  gid : Nat
  perm : Nat
deriving DecidableEq, Repr

/-- The incoming `SetAttr` change carried by the FUSE request. -/
structure SetAttrReq where
  mode : Option Nat
  uid : Option Nat
  gid : Option Nat
  size : Option Nat
  atime : Option Nat
  mtime : Option Nat
deriving DecidableEq, Repr

/-- The sparse attribute patch `SetFileAttr` handed to `update_inode`. -/
structure SetFileAttr where
  perm : Option Nat
  uid : Option Nat
  gid : Option Nat
  size : Option Nat
  atime : Option Nat
  mtime : Option Nat
  ctime : Option Nat
deriving DecidableEq, Repr

/-- `SetFileAttr::default()`: the freshly created, fully empty patch. -/
def emptyPatch : SetFileAttr := ⟨none, none, none, none, none, none, none⟩

/-- The chown branch's gid guard, reading the gid of the given patch:
`if let Some(gid) = set_attr2.gid { req.uid != 0 && !groups.contains(&gid) }`. -/
def gidGuard (req : FuseReq) (pg : Option Nat) : Bool :=
  match pg with
  | some gid => decide (req.uid ≠ 0 ∧ gid ∉ req.groups)
  | none => false

/-- The chown branch's uid guard, reading the uid of the given patch:
`if let Some(uid) = set_attr2.uid { req.uid != 0 && !(uid == attr.uid && req.uid == attr.uid) }`. -/
def uidGuard (req : FuseReq) (attrUid : Nat) (pu : Option Nat) : Bool :=
  match pu with
  | some uid => decide (req.uid ≠ 0 ∧ ¬ (uid = attrUid ∧ req.uid = attrUid))
  | none => false

/-- Result of the embedded `setattr`: an errno, or the patch passed to
`update_inode` on the path taken. -/
inductive SetattrResult where
  | err : Nat → SetattrResult
  | ok : SetFileAttr → SetattrResult
deriving DecidableEq, Repr

/-- The `setattr` handler, branch for branch. `now` stands for
`SystemTime::now()`. In the chown branch the guards and the uid/gid updates
read `set_attr2` — the freshly created empty patch — exactly as the source
does. -/
def setattrFn (req : FuseReq) (attr : InodeAttr) (sa : SetAttrReq) (now : Nat) :
    SetattrResult :=
  match sa.mode with
  | some mode =>
    if req.uid ≠ 0 ∧ req.uid ≠ attr.uid then .err EPERM
    else
      let p1 :=
        if req.uid ≠ 0 ∧ req.gid ≠ attr.gid ∧ attr.gid ∉ req.groups then
          { emptyPatch with perm := some ((mode &&& not32 S_ISGID) % 65536) }
        else { emptyPatch with perm := some (mode % 65536) }
      .ok { p1 with atime := some now }
  | none =>
    if sa.uid.isSome ∨ sa.gid.isSome then
      let p0 := emptyPatch
      if gidGuard req p0.gid then .err EPERM
      else if uidGuard req attr.uid p0.uid then .err EPERM
      else if p0.gid.isSome = true ∧ req.uid ≠ 0 ∧ req.uid ≠ attr.uid then .err EPERM
      else
        let p1 := { p0 with perm := some attr.perm }
        let p2 :=
          if attr.perm &&& (S_IXUSR ||| S_IXGRP ||| S_IXOTH) ≠ 0 then
            { p1 with perm := some (clear_suid_sgid attr.perm) }
          else p1
        let p3 :=
          match p2.uid with
          | some uid =>
            let pa := { p2 with uid := some uid }
            { pa with perm := some (pa.perm.getD 0 &&& not16 S_ISUID) }
          | none => p2
        let p4 :=
          match p3.gid with
          | some gid =>
            let pa := { p3 with gid := some gid }
            if req.uid ≠ 0 then
              { pa with perm := some (pa.perm.getD 0 &&& not16 S_ISGID) }
            else pa
          | none => p3
        .ok { p4 with atime := some now }
    else
      let p1 :=
        match sa.size with
        | some size =>
          { emptyPatch with size := some size, perm := some (clear_suid_sgid attr.perm) }
        | none => emptyPatch
      match sa.atime with
      | some atime =>
        if attr.uid ≠ req.uid ∧
            ¬ check_access attr.uid attr.gid attr.perm req.uid req.gid W_OK then
          .err EACCES
        else
          let p2 := { p1 with atime := some atime, ctime := some now }
          match sa.mtime with
          | some mtime =>
            if attr.uid ≠ req.uid ∧
                ¬ check_access attr.uid attr.gid attr.perm req.uid req.gid W_OK then
              .err EACCES
            else .ok { p2 with mtime := some mtime, ctime := some now }
          | none => .ok p2
      | none =>
        match sa.mtime with
        | some mtime =>
          if attr.uid ≠ req.uid ∧
              ¬ check_access attr.uid attr.gid attr.perm req.uid req.gid W_OK then
            .err EACCES
          else .ok { p1 with mtime := some mtime, ctime := some now }
        | none => .ok p1

/-- Modelled from the spec: `update_inode(ino, patch)` applies every present
field of the sparse patch to the stored attributes (the store itself lives
outside the shipped sources). -/
def applyPatch (attr : InodeAttr) (p : SetFileAttr) : InodeAttr :=
  ⟨p.uid.getD attr.uid, p.gid.getD attr.gid, p.perm.getD attr.perm⟩

/-- C8: in the chown branch of `setattr` the uid/gid permission guards and the
uid/gid updates read the freshly created empty patch instead of the incoming
change, so every request that sets uid and/or gid (and no mode) succeeds with
a patch containing neither uid nor gid, and applying that patch leaves the
inode's owner uid and gid unchanged. -/
theorem setattr_chown_ignores_uid_gid (req : FuseReq) (attr : InodeAttr)
    (sa : SetAttrReq) (now : Nat) (hmode : sa.mode = none)
    (hsome : sa.uid.isSome ∨ sa.gid.isSome) :
    ∃ p, setattrFn req attr sa now = .ok p ∧ p.uid = none ∧ p.gid = none ∧
      (applyPatch attr p).uid = attr.uid ∧ (applyPatch attr p).gid = attr.gid := by
  obtain ⟨smode, suid, sgid, ssize, satime, smtime⟩ := sa
  simp only at hmode hsome
  subst hmode
  by_cases hx : attr.perm &&& (S_IXUSR ||| S_IXGRP ||| S_IXOTH) ≠ 0
  · refine ⟨⟨some (clear_suid_sgid attr.perm), none, none, none, some now, none, none⟩,
      ?_, rfl, rfl, rfl, rfl⟩
    unfold setattrFn
    simp only [emptyPatch, gidGuard, uidGuard]
    rw [if_pos hsome]
    simp only [Option.isSome_none, Bool.false_eq_true, false_and, if_false,
      Bool.false_eq_true, if_pos hx]
  · refine ⟨⟨some attr.perm, none, none, none, some now, none, none⟩,
      ?_, rfl, rfl, rfl, rfl⟩
    unfold setattrFn
    simp only [emptyPatch, gidGuard, uidGuard]
    rw [if_pos hsome]
    simp only [Option.isSome_none, Bool.false_eq_true, false_and, if_false,
      Bool.false_eq_true, if_neg hx]

/-- Witness for C8: a non-root caller (uid 1000) asks to chown inode owned by
uid 1000 / gid 1000 to uid 0 and gid 0; the call succeeds and changes
neither. -/
theorem setattr_chown_ignores_uid_gid_witness :
    (⟨none, some 0, some 0, none, none, none⟩ : SetAttrReq).mode = none ∧
    ((⟨none, some 0, some 0, none, none, none⟩ : SetAttrReq).uid.isSome ∨
      (⟨none, some 0, some 0, none, none, none⟩ : SetAttrReq).gid.isSome) ∧
    (∃ p, setattrFn ⟨1000, 1000, [1000]⟩ ⟨1000, 1000, 0o644⟩
        ⟨none, some 0, some 0, none, none, none⟩ 99 = .ok p ∧
      p.uid = none ∧ p.gid = none ∧
      (applyPatch ⟨1000, 1000, 0o644⟩ p).uid = 1000 ∧
      (applyPatch ⟨1000, 1000, 0o644⟩ p).gid = 1000) :=
  ⟨rfl, Or.inl (by decide),
    setattr_chown_ignores_uid_gid ⟨1000, 1000, [1000]⟩ ⟨1000, 1000, 0o644⟩
      ⟨none, some 0, some 0, none, none, none⟩ 99 rfl (Or.inl (by decide))⟩

end Rencfs
